import Mathlib

/-!
Verification development for a pair of Python `find`-like command line tools:
`pyfind.py` (predicate expression engine, token-list parser, depth-bounded
directory walk) and `pfind.py` (name/type/size filtered traversal).

The Python source is shallowly embedded: machine state (the scanned token
list, the directory tree, the wall clock) is passed explicitly, Python
exceptions and early `sys.exit` calls are modelled with `Option`/`Except`,
and every definition is executable so that concrete runs can be computed
inside Lean.
-/

deriving instance DecidableEq for Except

namespace Pyfind

/-- File type discriminant derived from the `st_mode` bits
(`stat.S_ISREG`, `S_ISDIR`, `S_ISLNK`, `S_ISBLK`, `S_ISCHR`, `S_ISFIFO`,
`S_ISSOCK`). -/
inductive FileType where
  | reg | dir | lnk | blk | chr | fifo | sock
deriving DecidableEq, Repr

/-- Metadata snapshot of a filesystem entry as captured by `os.lstat`:
size in bytes, owner and group ids, type discriminant, and the three
timestamps (seconds). -/
structure Stat where
  st_mode : FileType
  st_size : Int
  st_uid : Nat
  st_gid : Nat
  st_mtime : Int
  st_atime : Int
  st_ctime : Int
deriving DecidableEq, Repr

/-- Numeric value of a decimal digit character. -/
def digitVal (c : Char) : Nat := c.toNat - 48

/-- Accumulating decimal parse; any non-digit character fails the whole
parse, as Python `int` rejects such strings with `ValueError`. -/
def parseDigitsAux : List Char → Nat → Option Nat
  | [], acc => some acc
  | c :: rest, acc =>
      if c.isDigit then parseDigitsAux rest (acc * 10 + digitVal c) else none

/-- Parse a nonempty all-digit character list as a natural number. -/
def parseDigits : List Char → Option Nat
  | [] => none
  | c :: rest => parseDigitsAux (c :: rest) 0

/-- Python `int(s)` on a trimmed string: an optional single sign followed
by at least one digit; anything else raises `ValueError` (here `none`). -/
def pyIntChars : List Char → Option Int
  | '+' :: rest => (parseDigits rest).map Int.ofNat
  | '-' :: rest => (parseDigits rest).map (fun n => -(n : Int))
  | cs => (parseDigits cs).map Int.ofNat

/-- Python `int(s)` for a whole string. -/
def pyInt (s : String) : Option Int := pyIntChars s.data

/-- `n_compare(val, nstr)` from pyfind: compare `val` against a spec string
of shape `+N`, `-N` or `N`.  `none` models the `ValueError` Python raises
from `int` on a malformed number. -/
def n_compare (val : Int) (nstr : String) : Option Bool :=
  match nstr.data with
  | '+' :: rest => (pyIntChars rest).map (fun n => decide (n < val))
  | '-' :: rest => (pyIntChars rest).map (fun n => decide (val < n))
  | _ => (pyIntChars nstr.data).map (fun n => decide (val = n))

/-! ### Glob matching (`fnmatch.fnmatch` on POSIX) -/

/-- Split a character-class body at the first `]` (the closing-bracket scan
of `fnmatch.translate`); `none` when no closing bracket exists. -/
def findClosing : List Char → Option (List Char × List Char)
  | [] => none
  | ']' :: rest => some ([], rest)
  | c :: rest => (findClosing rest).map (fun p => (c :: p.1, p.2))

/-- Character-class membership, with `a-b` ranges as in the regex that
`fnmatch.translate` produces for `[...]`. -/
def inClass (c : Char) : List Char → Bool
  | a :: '-' :: b :: rest => (decide (a ≤ c) && decide (c ≤ b)) || inClass c rest
  | a :: rest => (a == c) || inClass c rest
  | [] => false

/-- Glob matching of a string against a pattern (`*`, `?`, `[...]` with `!`
negation).  The `fuel` argument only makes the recursion structural; every
call site supplies enough fuel for the match to run to completion. -/
def globGo : Nat → List Char → List Char → Bool
  | 0, _, _ => false
  | _ + 1, [], s => s.isEmpty
  | fuel + 1, '*' :: ps, s =>
      globGo fuel ps s ||
        (match s with
         | [] => false
         | _ :: srest => globGo fuel ('*' :: ps) srest)
  | fuel + 1, '?' :: ps, s =>
      (match s with
       | [] => false
       | _ :: srest => globGo fuel ps srest)
  | fuel + 1, '[' :: ps, s =>
      let negp : Bool × List Char :=
        match ps with
        | '!' :: r => (true, r)
        | _ => (false, ps)
      let cls : Option (List Char × List Char) :=
        match negp.2 with
        | ']' :: r2 => (findClosing r2).map (fun p => (']' :: p.1, p.2))
        | other => findClosing other
      (match cls, s with
       | _, [] => false
       | none, c :: srest => (c == '[') && globGo fuel ps srest
       | some clrest, c :: srest =>
           (inClass c clrest.1 != negp.1) && globGo fuel clrest.2 srest)
  | fuel + 1, c :: ps, s =>
      (match s with
       | [] => false
       | d :: srest => (c == d) && globGo fuel ps srest)

/-- `fnmatch.fnmatch(name, pattern)` with POSIX case folding (identity). -/
def fnmatchB (nm pat : String) : Bool :=
  globGo (pat.data.length + nm.data.length + 1) pat.data nm.data

/-- Python `str.lower()` (ASCII case folding). -/
def strLower (s : String) : String := String.mk (s.data.map Char.toLower)

/-- `match_pattern(name, pattern, case_sensitive)` from pyfind. -/
def match_pattern (nm pat : String) (caseSensitive : Bool) : Bool :=
  if caseSensitive then fnmatchB nm pat
  else fnmatchB (strLower nm) (strLower pat)

/-- `os.path.basename`: the part of a path after the last separator. -/
def pyBasename (s : String) : String :=
  String.mk ((s.data.reverse.takeWhile (fun c => c ≠ '/')).reverse)

/-- Repeated `os.path.join` of a root path with relative components. -/
def joinPath (top : String) (comps : List String) : String :=
  comps.foldl (fun acc c => acc ++ "/" ++ c) top

/-! ### Predicate expressions (pyfind classes `Expr` … `FalseExpr`) -/

/-- The predicate expression tree pyfind's parser builds.  `user`/`group`
hold the numeric id resolved at construction time (pyfind resolves names
through the user/group database inside `__init__`); the size and age
variants hold the raw spec string, which pyfind keeps unparsed until
evaluation. -/
inductive PExpr where
  | true_ | false_
  | name (pat : String) | iname (pat : String)
  | type_ (t : String)
  | user (uid : Nat) | group (gid : Nat)
  | size (spec : String)
  | mtime (spec : String) | atime (spec : String) | ctime (spec : String)
  | and (l r : PExpr) | or (l r : PExpr) | not (e : PExpr)
deriving DecidableEq, Repr

/-- Python `str.lstrip('+-')`. -/
def lstripPM (s : List Char) : List Char :=
  s.dropWhile (fun c => c == '+' || c == '-')

/-- Age in whole days: `int((now - t) // 86400)` (floor division). -/
def ageDays (now t : Int) : Int := (now - t).fdiv 86400

/-- Evaluate a predicate expression against `(path, st)`, mirroring the
`__call__` methods of the pyfind expression classes.  `none` models a
Python exception escaping the evaluation (the `ValueError` that `int`
raises on a malformed size/age spec); `and`/`or` short-circuit exactly as
Python's `and`/`or` do. -/
def evalExpr (now : Int) (path : String) (st : Stat) : PExpr → Option Bool
  | .true_ => some true
  | .false_ => some false
  | .name pat => some (match_pattern (pyBasename path) pat true)
  | .iname pat => some (match_pattern (pyBasename path) pat false)
  | .type_ t => some (
      if t = "f" then st.st_mode == FileType.reg
      else if t = "d" then st.st_mode == FileType.dir
      else if t = "l" then st.st_mode == FileType.lnk
      else if t = "b" then st.st_mode == FileType.blk
      else if t = "c" then st.st_mode == FileType.chr
      else if t = "p" then st.st_mode == FileType.fifo
      else if t = "s" then st.st_mode == FileType.sock
      else false)
  | .user uid => some (st.st_uid == uid)
  | .group gid => some (st.st_gid == gid)
  | .size spec => n_compare st.st_size spec
  | .mtime spec =>
      match pyIntChars (lstripPM spec.data) with
      | none => none
      | some _ => n_compare (ageDays now st.st_mtime) spec
  | .atime spec =>
      match pyIntChars (lstripPM spec.data) with
      | none => none
      | some _ => n_compare (ageDays now st.st_atime) spec
  | .ctime spec =>
      match pyIntChars (lstripPM spec.data) with
      | none => none
      | some _ => n_compare (ageDays now st.st_ctime) spec
  | .and l r =>
      match evalExpr now path st l with
      | none => none
      | some false => some false
      | some true => evalExpr now path st r
  | .or l r =>
      match evalExpr now path st l with
      | none => none
      | some true => some true
      | some false => evalExpr now path st r
  | .not e => (evalExpr now path st e).map (fun b => !b)

/-! ### The expression scanner (`parse_expr`) -/

/-- How a `parse_expr` call can terminate the program early: an uncaught
`IndexError` from `args[i+1]` past the end, an uncaught `ValueError` from
`int`, an uncaught `KeyError` from the user/group database, or the
`sys.exit(0)` of `--help` / `--version`. -/
inductive ParseExit where
  | indexError | valueError | keyError (nm : String) | helpExit | versionExit
deriving DecidableEq, Repr

/-- Python `str.isdigit` (ASCII digits). -/
def pyIsDigit (s : String) : Bool := !s.data.isEmpty && s.data.all Char.isDigit

/-- `int(u)` for a string that `isdigit` accepted. -/
def natOfDigits (s : String) : Nat := (parseDigits s.data).getD 0

/-- The token classes distinguished by the `elif` dispatch of
`parse_expr`.  `tparen` covers both `(` and `)` (identical inert
handling) and `tother` is the silently-skipped fall-through. -/
inductive TokKind where
  | tname | tiname | ttype | tuser | tgroup | tsize | tmtime | tatime | tctime
  | tprint | tprint0 | tdelete | ttrue | tfalse
  | tnot | tand | tor | tparen | thelp | tversion | tother
deriving DecidableEq, Repr

/-- The `elif` chain of `parse_expr`, in source order, as a token
classification. -/
def tokKind (a : String) : TokKind :=
  if a = "-name" then .tname
  else if a = "-iname" then .tiname
  else if a = "-type" then .ttype
  else if a = "-user" then .tuser
  else if a = "-group" then .tgroup
  else if a = "-size" then .tsize
  else if a = "-mtime" then .tmtime
  else if a = "-atime" then .tatime
  else if a = "-ctime" then .tctime
  else if a = "-print" then .tprint
  else if a = "-print0" then .tprint0
  else if a = "-delete" then .tdelete
  else if a = "-true" then .ttrue
  else if a = "-false" then .tfalse
  else if a = "!" ∨ a = "-not" then .tnot
  else if a = "-and" ∨ a = "-a" then .tand
  else if a = "-or" ∨ a = "-o" then .tor
  else if a = "(" ∨ a = ")" then .tparen
  else if a = "--help" then .thelp
  else if a = "--version" then .tversion
  else .tother

/-- Argument-taking test flags (`-name`, `-iname`, `-type`, `-size`,
`-mtime`, `-atime`, `-ctime`): consume the token after the flag and AND
the constructed predicate onto the accumulator; a missing token is the
uncaught `IndexError` Python raises from `args[i+1]`. -/
def twoTok (recur : PExpr → List String → Nat → Except ParseExit (PExpr × Nat))
    (mk : String → PExpr) (acc : PExpr) (args : List String) (i : Nat) :
    List String → Except ParseExit (PExpr × Nat)
  | [] => .error .indexError
  | p :: _ => recur (.and acc (mk p)) args (i + 2)

/-- Resolution of a non-numeric `-user`/`-group` argument through the
user/group database: a hit constructs the predicate, a miss is the
`KeyError` that `pwd.getpwnam`/`grp.getgrnam` raise. -/
def dbRes (mk : Nat → PExpr)
    (recur : PExpr → List String → Nat → Except ParseExit (PExpr × Nat))
    (acc : PExpr) (args : List String) (i : Nat) (u : String) :
    Option Nat → Except ParseExit (PExpr × Nat)
  | some uid => recur (.and acc (mk uid)) args (i + 2)
  | none => .error (.keyError u)

/-- `-user` / `-group`: an all-digit argument is taken as the numeric id
directly (`int(user) if user.isdigit()`), anything else goes through the
database. -/
def dbTok (db : String → Option Nat) (mk : Nat → PExpr)
    (recur : PExpr → List String → Nat → Except ParseExit (PExpr × Nat))
    (acc : PExpr) (args : List String) (i : Nat) :
    List String → Except ParseExit (PExpr × Nat)
  | [] => .error .indexError
  | u :: _ =>
      if pyIsDigit u then recur (.and acc (mk (natOfDigits u))) args (i + 2)
      else dbRes mk recur acc args i u (db u)

/-- Combine the result of an operator's sub-parse (`subexpr, skip =
parse_expr(args[i+1:])`) with the accumulated predicate and resume the
scan at `i + skip + 1`; an exception or exit escaping the sub-parse
propagates. -/
def opRes (combine : PExpr → PExpr → PExpr)
    (recur : PExpr → List String → Nat → Except ParseExit (PExpr × Nat))
    (acc : PExpr) (args : List String) (i : Nat) :
    Except ParseExit (PExpr × Nat) → Except ParseExit (PExpr × Nat)
  | .error ex => .error ex
  | .ok (sub, skip) => recur (combine acc sub) args (i + skip + 1)

/-- One step of the scanning loop of `parse_expr` for a token of the given
kind, with `rest` the tokens following it and `recur` the continuation of
the loop (and of the recursive `parse_expr` calls).  Branch for branch
this is the body of the Python `while` loop. -/
def branchGo (pdb gdb : String → Option Nat)
    (recur : PExpr → List String → Nat → Except ParseExit (PExpr × Nat))
    (acc : PExpr) (args : List String) (i : Nat) (rest : List String) :
    TokKind → Except ParseExit (PExpr × Nat)
  | .tname => twoTok recur .name acc args i rest
  | .tiname => twoTok recur .iname acc args i rest
  | .ttype => twoTok recur .type_ acc args i rest
  | .tuser => dbTok pdb .user recur acc args i rest
  | .tgroup => dbTok gdb .group recur acc args i rest
  | .tsize => twoTok recur .size acc args i rest
  | .tmtime => twoTok recur .mtime acc args i rest
  | .tatime => twoTok recur .atime acc args i rest
  | .tctime => twoTok recur .ctime acc args i rest
  | .tprint => recur acc args (i + 1)
  | .tprint0 => recur acc args (i + 1)
  | .tdelete => recur acc args (i + 1)
  | .ttrue => recur (.and acc .true_) args (i + 1)
  | .tfalse => recur (.and acc .false_) args (i + 1)
  | .tnot => opRes (fun l sub => .and l (.not sub)) recur acc args i
      (recur .true_ (args.drop (i + 1)) 0)
  | .tand => recur acc args (i + 1)
  | .tor => opRes .or recur acc args i (recur .true_ (args.drop (i + 1)) 0)
  | .tparen => recur acc args (i + 1)
  | .thelp => .error .helpExit
  | .tversion => .error .versionExit
  | .tother => recur acc args (i + 1)

/-- The scanning loop applied to the token suffix `args.drop i`. -/
def parse_scan (pdb gdb : String → Option Nat)
    (recur : PExpr → List String → Nat → Except ParseExit (PExpr × Nat))
    (acc : PExpr) (args : List String) (i : Nat) :
    List String → Except ParseExit (PExpr × Nat)
  | [] => .ok (acc, i)
  | a :: rest => branchGo pdb gdb recur acc args i rest (tokKind a)

/-- The scanning loop of pyfind's `parse_expr`, embedded over the token
list `args` with loop counter `i`, user database `pdb` and group database
`gdb` (maps from a name to an id; `none` is a `KeyError`).  On success it
returns the accumulated predicate together with the final value of `i`,
exactly as the Python function returns `expr, i`.  The `fuel` argument
only makes the recursion structural; `parse_expr` supplies
`args.length + 1`, which is always sufficient. -/
def parse_go (pdb gdb : String → Option Nat) :
    Nat → PExpr → List String → Nat → Except ParseExit (PExpr × Nat)
  | 0, acc, _, i => .ok (acc, i)
  | fuel + 1, acc, args, i =>
      parse_scan pdb gdb (parse_go pdb gdb fuel) acc args i (args.drop i)

/-- `parse_expr(args)`: scan the whole token list starting from an
implicit `TrueExpr()` accumulator. -/
def parse_expr (pdb gdb : String → Option Nat) (args : List String) :
    Except ParseExit (PExpr × Nat) :=
  parse_go pdb gdb (args.length + 1) .true_ args 0

/-! ### Action selection and depth options (pyfind `main`) -/

/-- The three actions pyfind can apply to a matched entry. -/
inductive PAction where
  | print | print0 | delete
deriving DecidableEq, Repr

/-- One step of the action-selection loop in `main`: an action flag token
overwrites the current action, every other token leaves it unchanged. -/
def selectStep (acc : PAction) (a : String) : PAction :=
  if a = "-print" then .print
  else if a = "-print0" then .print0
  else if a = "-delete" then .delete
  else acc

/-- The action-selection loop of `main`: scan all expression arguments,
starting from the default `action_print`. -/
def select_action (args : List String) : PAction :=
  args.foldl selectStep .print

/-- `list.index(x)` as an option: index of the first occurrence. -/
def findFlagIdx (flag : String) : List String → Option Nat
  | [] => none
  | a :: rest =>
      if a = flag then some 0 else (findFlagIdx flag rest).map (· + 1)

/-- The `-mindepth` / `-maxdepth` extraction in `main`: if the flag occurs
anywhere in the argument list, take the token after its first occurrence
and parse it with `int`; a missing token is an `IndexError` and a
non-numeric one a `ValueError`. -/
def extract_depth (flag : String) (args : List String) :
    Except ParseExit (Option Int) :=
  match findFlagIdx flag args with
  | none => .ok none
  | some idx =>
      match args.drop (idx + 1) with
      | [] => .error .indexError
      | s :: _ =>
          match pyInt s with
          | none => .error .valueError
          | some n => .ok (some n)

/-! ### The directory tree and the traversal driver (`walk`) -/

mutual
/-- A directory in the modelled filesystem: its subdirectories (in the
order `os.walk` reports them) and its plain entries (files, symlinks,
special files), each with the result of `os.lstat` (`none` models a stat
failure, e.g. a permission error or a race-deleted entry). -/
inductive FSDir where
  | mk : FSList → List (String × Option Stat) → FSDir
/-- The subdirectory list: name, `lstat` result of the subdirectory
itself, and its tree. -/
inductive FSList where
  | nil : FSList
  | cons : String → Option Stat → FSDir → FSList → FSList
end

/-- The name/stat pairs of a subdirectory list, as they appear among a
directory's entries. -/
def FSList.entriesOf : FSList → List (String × Option Stat)
  | .nil => []
  | .cons n st _ rest => (n, st) :: entriesOf rest

/-- The names of a subdirectory list. -/
def FSList.namesOf : FSList → List String
  | .nil => []
  | .cons n _ _ rest => n :: namesOf rest

/-- Observable result of a traversal: the directories `os.walk` yielded
(as component lists relative to the root), the entries on which the
action fired (containing directory components, entry name, stat), and
whether an exception escaped and aborted the walk. -/
structure WalkRes where
  vis : List (List String)
  emitted : List (List String × String × Stat)
  crashed : Bool
deriving DecidableEq, Repr

/-- Sequencing of two traversal parts: a crash in the first aborts the
whole walk before the second runs. -/
def seqW (a b : WalkRes) : WalkRes :=
  if a.crashed then a
  else ⟨a.vis ++ b.vis, a.emitted ++ b.emitted, b.crashed⟩

/-- The `maxdepth is not None and rel_depth > maxdepth` test. -/
def overMax (maxdepth : Option Int) (depth : Nat) : Bool :=
  match maxdepth with
  | none => false
  | some mx => decide ((depth : Int) > mx)

/-- The entry loop of `walk`: `for name in files + dirs`, skipping entries
whose `lstat` fails, evaluating the predicate on the rest and invoking
the action on matches.  Returns the matched entries in order, plus a flag
telling whether predicate evaluation raised (which aborts the program). -/
def emitEntries (ev : String → Stat → Option Bool) (top : String)
    (comps : List String) :
    List (String × Option Stat) → List (List String × String × Stat) × Bool
  | [] => ([], false)
  | (nm, ost) :: rest =>
      match ost with
      | none => emitEntries ev top comps rest
      | some st =>
          match ev (joinPath top (comps ++ [nm])) st with
          | none => ([], true)
          | some b =>
              let r := emitEntries ev top comps rest
              (if b then (comps, nm, st) :: r.1 else r.1, r.2)

mutual
/-- The body of pyfind's `walk` for one directory `os.walk` yielded, at
relative components `comps` (so `rel_depth = comps.length`).  The checks
appear in source order: the `mindepth` `continue` (which skips emission
but still descends) runs before the `maxdepth` pruning (which also clears
the subdirectory list). -/
def walkGo (m : Int) (M : Option Int) (ev : String → Stat → Option Bool)
    (top : String) (comps : List String) : FSDir → WalkRes
  | .mk subs fils =>
    if m ≠ 0 ∧ ((comps.length : Int) < m) then
      let r := walkSubs m M ev top comps subs
      ⟨comps :: r.vis, r.emitted, r.crashed⟩
    else if overMax M comps.length then ⟨[comps], [], false⟩
    else
      let e := emitEntries ev top comps (fils ++ subs.entriesOf)
      if e.2 then ⟨[comps], e.1, true⟩
      else
        let r := walkSubs m M ev top comps subs
        ⟨comps :: r.vis, e.1 ++ r.emitted, r.crashed⟩
/-- Descend into each subdirectory in order; an exception escaping one
subtree aborts the rest. -/
def walkSubs (m : Int) (M : Option Int) (ev : String → Stat → Option Bool)
    (top : String) (comps : List String) : FSList → WalkRes
  | .nil => ⟨[], [], false⟩
  | .cons n _ d rest =>
      let r := walkGo m M ev top (comps ++ [n]) d
      if r.crashed then r
      else seqW r (walkSubs m M ev top comps rest)
end

/-- pyfind's `walk` over the list of root paths, in order. -/
def walk (m : Int) (M : Option Int) (ev : String → Stat → Option Bool) :
    List (String × FSDir) → WalkRes
  | [] => ⟨[], [], false⟩
  | (top, d) :: rest =>
      let r := walkGo m M ev top [] d
      if r.crashed then r
      else seqW r (walk m M ev rest)

/-- pyfind's `main` after path splitting: parse the expression arguments,
recompute the action by the last-wins scan, extract the first
`-mindepth`/`-maxdepth` occurrences, and walk the given root trees with
the composed predicate evaluated at wall-clock time `now`. -/
def pyfind_run (now : Int) (pdb gdb : String → Option Nat)
    (tops : List (String × FSDir)) (args : List String) :
    Except ParseExit (PAction × WalkRes) :=
  match parse_expr pdb gdb args with
  | .error e => .error e
  | .ok (e, _) =>
      match extract_depth "-mindepth" args with
      | .error x => .error x
      | .ok mOpt =>
          match extract_depth "-maxdepth" args with
          | .error x => .error x
          | .ok mxOpt =>
              .ok (select_action args,
                walk (mOpt.getD 0) mxOpt
                  (fun path st => evalExpr now path st e) tops)

end Pyfind

namespace Pfind

open Pyfind (parseDigits fnmatchB)

/-- Maximal-munch digit span (the `\d+` group of pfind's size regex). -/
def spanDigits : List Char → List Char × List Char
  | [] => ([], [])
  | c :: rest =>
      if c.isDigit then
        let p := spanDigits rest
        (c :: p.1, p.2)
      else ([], c :: rest)

/-- The `([+-]?)` group: split off an optional sign character. -/
def signSplit : List Char → List Char × List Char
  | [] => ([], [])
  | c :: r => if c = '+' ∨ c = '-' then ([c], r) else ([], c :: r)

/-- The `([kKmMgG]?)` group: an optional unit letter. -/
def unitOf : List Char → List Char
  | [] => []
  | c :: _ =>
      if c = 'k' ∨ c = 'K' ∨ c = 'm' ∨ c = 'M' ∨ c = 'g' ∨ c = 'G'
      then [c] else []

/-- `re.match(r"([+-]?)(\d+)([kKmMgG]?)", expr)`: an optional sign, at
least one digit (maximal munch), an optional unit letter; trailing text
is ignored because `re.match` only anchors at the start.  Returns the
sign group, the numeric value of the digit group, and the unit group. -/
def regexSize (s : List Char) : Option (List Char × Nat × List Char) :=
  let sr := signSplit s
  let ds := spanDigits sr.2
  match parseDigits ds.1 with
  | none => none
  | some n => some (sr.1, n, unitOf ds.2)

/-- `parse_size_expr(expr)` from pfind: `None` for a falsy (empty) string,
`ValueError` when the regex does not match, otherwise the sign and the
number scaled by the unit factor. -/
def parse_size_expr (expr : String) : Except String (Option (List Char × Nat)) :=
  if expr.data = [] then .ok none
  else
    match regexSize expr.data with
    | none => .error ("Invalid size expression: " ++ expr)
    | some (sign, n, unit) =>
        let factor : Nat :=
          if unit = ['k'] ∨ unit = ['K'] then 1024
          else if unit = ['m'] ∨ unit = ['M'] then 1024 ^ 2
          else if unit = ['g'] ∨ unit = ['G'] then 1024 ^ 3
          else 1
        .ok (some (sign, n * factor))

/-- `match_size(size, expr)` from pfind: a falsy spec matches everything;
otherwise the parsed sign decides the comparison (`+` strictly greater,
`-` strictly less, no sign exact equality).  An `Except.error` is a
Python exception escaping the call. -/
def match_size (size : Int) (expr : Option String) : Except String Bool :=
  match expr with
  | none => .ok true
  | some e =>
      if e.data = [] then .ok true
      else
        match parse_size_expr e with
        | .error msg => .error msg
        | .ok none => .error "TypeError: cannot unpack None"
        | .ok (some (sign, value)) =>
            if sign = ['+'] then .ok (decide (size > (value : Int)))
            else if sign = ['-'] then .ok (decide (size < (value : Int)))
            else .ok (decide (size = (value : Int)))

/-! ### pfind's traversal -/

mutual
/-- A directory for pfind's `traverse`: subdirectories (pfind never stats
a directory, so only names and subtrees are needed) and files with their
`os.path.getsize` sizes. -/
inductive PDir where
  | mk : PList → List (String × Int) → PDir
/-- The subdirectory list of a `PDir`. -/
inductive PList where
  | nil : PList
  | cons : String → PDir → PList → PList
end

/-- `if name and not fnmatch.fnmatch(n, name): continue` — a missing or
falsy (empty) pattern keeps every entry. -/
def matchName (name : Option String) (n : String) : Bool :=
  match name with
  | none => true
  | some pat => if pat.data = [] then true else fnmatchB n pat

/-- Truthiness of the `size` argument (`if size and ...`). -/
def sizePresent : Option String → Bool
  | none => false
  | some s => !s.data.isEmpty

/-- `type_ in (None, "d")`. -/
def typeDirs (type_ : Option String) : Bool :=
  type_ == none || type_ == some "d"

/-- `type_ in (None, "f")`. -/
def typeFiles (type_ : Option String) : Bool :=
  type_ == none || type_ == some "f"

/-- `os.path.join` of a directory path and an entry name. -/
def pjoin (dirpath n : String) : String := dirpath ++ "/" ++ n

/-- The filename loop of `traverse` for one visited directory: name
filter first, then the size filter (whose `match_size` call can raise and
abort the whole traversal — the second component carries the escaping
exception message). -/
def fileLoop (name size : Option String) (dirpath : String) :
    List (String × Int) → List String × Option String
  | [] => ([], none)
  | (f, sz) :: rest =>
      if !matchName name f then fileLoop name size dirpath rest
      else if sizePresent size then
        match match_size sz size with
        | .error msg => ([], some msg)
        | .ok true =>
            let r := fileLoop name size dirpath rest
            (pjoin dirpath f :: r.1, r.2)
        | .ok false => fileLoop name size dirpath rest
      else
        let r := fileLoop name size dirpath rest
        (pjoin dirpath f :: r.1, r.2)

/-- The directory-name loop of `traverse` for one visited directory: only
the name filter applies — the size filter is deliberately not applied to
directories. -/
def dirLoop (name : Option String) (dirpath : String) : PList → List String
  | .nil => []
  | .cons n _ rest =>
      if matchName name n then pjoin dirpath n :: dirLoop name dirpath rest
      else dirLoop name dirpath rest

mutual
/-- pfind's `traverse` at one `os.walk` tuple: yield matching directory
names (when the type filter allows directories), then matching files
(when it allows files), then recurse into each subdirectory.  The second
component is the message of an exception escaping mid-traversal, which
aborts everything after it. -/
def travGo (name type_ size : Option String) (dirpath : String) :
    PDir → List String × Option String
  | .mk subs fils =>
    let dirYields := if typeDirs type_ then dirLoop name dirpath subs else []
    let fileRes :=
      if typeFiles type_ then fileLoop name size dirpath fils else ([], none)
    match fileRes.2 with
    | some msg => (dirYields ++ fileRes.1, some msg)
    | none =>
        let sub := travList name type_ size dirpath subs
        (dirYields ++ fileRes.1 ++ sub.1, sub.2)
/-- Recurse into the subdirectories in order. -/
def travList (name type_ size : Option String) (dirpath : String) :
    PList → List String × Option String
  | .nil => ([], none)
  | .cons n d rest =>
      let r := travGo name type_ size (pjoin dirpath n) d
      match r.2 with
      | some msg => (r.1, some msg)
      | none =>
          let r2 := travList name type_ size dirpath rest
          (r.1 ++ r2.1, r2.2)
end

/-- `traverse(root, name, type_, size)`: walk from the root directory. -/
def traverse (root : String) (name type_ size : Option String) (t : PDir) :
    List String × Option String :=
  travGo name type_ size root t

mutual
/-- All directories of a `PDir` tree, as pairs of (components of the
containing directory relative to the root, directory name), in traversal
order. -/
def allDirsD : PDir → List (List String × String)
  | .mk subs _ => allDirsL subs
/-- All directories below a subdirectory list. -/
def allDirsL : PList → List (List String × String)
  | .nil => []
  | .cons n d rest =>
      ([], n) :: (allDirsD d).map (fun p => (n :: p.1, p.2)) ++ allDirsL rest
end

/-- A size argument on which `match_size` can never raise: absent, falsy,
or accepted by the size regex. -/
def sizeValid : Option String → Bool
  | none => true
  | some s => s.data.isEmpty || (regexSize s.data).isSome

end Pfind

/-! ## Parser lemmas -/

namespace Pyfind

theorem parse_go_at_end (pdb gdb : String → Option Nat) (fuel : Nat)
    (acc : PExpr) (args : List String) (i : Nat) (h : args.length ≤ i) :
    parse_go pdb gdb fuel acc args i = .ok (acc, i) := by
  cases fuel with
  | zero => rfl
  | succ fuel =>
      simp only [parse_go]
      rw [List.drop_eq_nil_of_le h]
      simp only [parse_scan]

/-- On sufficient fuel, a successful scan always runs the loop counter to
the very end of the token list: pyfind's `parse_expr` consumes every
token it is given. -/
theorem parse_go_consumes (pdb gdb : String → Option Nat) :
    ∀ (fuel : Nat) (args : List String) (i : Nat) (acc e : PExpr) (k : Nat),
      args.length - i < fuel → i ≤ args.length →
      parse_go pdb gdb fuel acc args i = .ok (e, k) → k = args.length := by
  intro fuel
  induction fuel with
  | zero => intro args i acc e k hf hi hp; exact absurd hf (by omega)
  | succ fuel ih =>
      intro args i acc e k hf hi hp
      rw [parse_go] at hp
      cases hdrop : args.drop i with
      | nil =>
          rw [hdrop] at hp
          simp only [parse_scan] at hp
          have hle : args.length ≤ i := by
            have h1 := List.length_drop i args
            rw [hdrop] at h1
            simp at h1
            omega
          injection hp with hpair
          injection hpair with hacc hik
          omega
      | cons a rest =>
          rw [hdrop] at hp
          simp only [parse_scan] at hp
          have hlen : args.length - i = rest.length + 1 := by
            have h1 := List.length_drop i args
            rw [hdrop] at h1
            simpa using h1.symm
          have hdrop1 : args.drop (i + 1) = rest := by
            rw [← List.tail_drop, hdrop, List.tail_cons]
          cases hk : tokKind a
          all_goals rw [hk] at hp
          all_goals simp only [branchGo] at hp
          all_goals first
          | -- one-token branches: the loop advances by one
            exact ih args (i + 1) _ e k (by omega) (by omega) hp
          | -- `--help` / `--version`: unreachable success
            simp at hp
          | -- two-argument test flags
            (cases rest with
            | nil => simp [twoTok] at hp
            | cons p r2 =>
                simp only [twoTok] at hp
                simp only [List.length_cons] at hlen
                exact ih args (i + 2) _ e k (by omega) (by omega) hp)
          | -- `-user`
            (cases rest with
            | nil => simp [dbTok] at hp
            | cons u r2 =>
                simp only [dbTok] at hp
                simp only [List.length_cons] at hlen
                split_ifs at hp
                · exact ih args (i + 2) _ e k (by omega) (by omega) hp
                · cases hu : pdb u with
                  | some uid =>
                      rw [hu] at hp
                      simp only [dbRes] at hp
                      exact ih args (i + 2) _ e k (by omega) (by omega) hp
                  | none => rw [hu] at hp; simp [dbRes] at hp)
          | -- `-group`
            (cases rest with
            | nil => simp [dbTok] at hp
            | cons u r2 =>
                simp only [dbTok] at hp
                simp only [List.length_cons] at hlen
                split_ifs at hp
                · exact ih args (i + 2) _ e k (by omega) (by omega) hp
                · cases hu : gdb u with
                  | some gid =>
                      rw [hu] at hp
                      simp only [dbRes] at hp
                      exact ih args (i + 2) _ e k (by omega) (by omega) hp
                  | none => rw [hu] at hp; simp [dbRes] at hp)
          | -- `!` / `-not` / `-or` / `-o`: sub-parse of the remainder,
            -- then the loop resumes past everything it consumed
            (cases hin : parse_go pdb gdb fuel .true_ (args.drop (i + 1)) 0 with
            | error ex => rw [hin] at hp; simp [opRes] at hp
            | ok pr =>
                obtain ⟨sub, skip⟩ := pr
                rw [hin] at hp
                simp only [opRes] at hp
                have hskip := ih (args.drop (i + 1)) 0 .true_ sub skip
                  (by rw [hdrop1]; omega) (Nat.zero_le _) hin
                rw [hdrop1] at hskip
                exact ih args (i + skip + 1) _ e k (by omega) (by omega) hp)

/-- The scan result does not depend on the fuel, as long as the fuel
exceeds the number of tokens left to scan. -/
theorem parse_go_mono (pdb gdb : String → Option Nat) :
    ∀ (fuel1 fuel2 : Nat) (args : List String) (i : Nat) (acc : PExpr),
      args.length - i < fuel1 → args.length - i < fuel2 →
      parse_go pdb gdb fuel1 acc args i = parse_go pdb gdb fuel2 acc args i := by
  intro fuel1
  induction fuel1 with
  | zero => intro fuel2 args i acc h1 h2; exact absurd h1 (by omega)
  | succ fuel1 ih =>
      intro fuel2 args i acc h1 h2
      cases fuel2 with
      | zero => exact absurd h2 (by omega)
      | succ fuel2 =>
          rw [parse_go, parse_go]
          cases hdrop : args.drop i with
          | nil => simp only [parse_scan]
          | cons a rest =>
              simp only [parse_scan]
              have hlen : args.length - i = rest.length + 1 := by
                have hx := List.length_drop i args
                rw [hdrop] at hx
                simpa using hx.symm
              have hdrop1 : args.drop (i + 1) = rest := by
                rw [← List.tail_drop, hdrop, List.tail_cons]
              have hsub : parse_go pdb gdb fuel1 PExpr.true_ (args.drop (i + 1)) 0 = parse_go pdb gdb fuel2 PExpr.true_ (args.drop (i + 1)) 0 :=
                ih fuel2 (args.drop (i + 1)) 0 PExpr.true_ (by rw [hdrop1]; omega) (by rw [hdrop1]; omega)
              cases hk : tokKind a
              all_goals simp only [branchGo]
              all_goals first
              | -- one-token branches
                exact ih fuel2 args (i + 1) _ (by omega) (by omega)
              | -- help / version
                rfl
              | -- two-argument test flags
                (cases rest with
                | nil => simp only [twoTok]
                | cons p r2 =>
                    simp only [twoTok, List.length_cons] at hlen ⊢
                    exact ih fuel2 args (i + 2) _ (by omega) (by omega))
              | -- user / group database flags
                (cases rest with
                | nil => simp only [dbTok]
                | cons u r2 =>
                    simp only [dbTok, List.length_cons] at hlen ⊢
                    split_ifs
                    · exact ih fuel2 args (i + 2) _ (by omega) (by omega)
                    · first
                      | (cases hu : pdb u with
                        | some uid =>
                            simp only [dbRes]
                            exact ih fuel2 args (i + 2) _ (by omega) (by omega)
                        | none => simp only [dbRes])
                      | (cases hu : gdb u with
                        | some gid =>
                            simp only [dbRes]
                            exact ih fuel2 args (i + 2) _ (by omega) (by omega)
                        | none => simp only [dbRes]))
              | -- operators
                (rw [hsub]
                 cases hin : parse_go pdb gdb fuel2 .true_ (args.drop (i + 1)) 0 with
                 | error ex => simp only [opRes]
                 | ok pr =>
                     obtain ⟨sub, skip⟩ := pr
                     simp only [opRes]
                     have hskip := parse_go_consumes pdb gdb fuel2 (args.drop (i + 1)) 0 .true_ sub skip (by rw [hdrop1]; omega) (Nat.zero_le _) hin
                     rw [hdrop1] at hskip
                     exact ih fuel2 args (i + skip + 1) _ (by omega) (by omega))

end Pyfind

/-! ## Helper lemmas about digit strings -/

namespace Pyfind

theorem parseDigitsAux_all {ds : List Char} {acc n : Nat}
    (h : parseDigitsAux ds acc = some n) : ∀ c ∈ ds, c.isDigit := by
  induction ds generalizing acc with
  | nil => intro c hc; cases hc
  | cons c rest ih =>
      intro x hx
      rw [List.mem_cons] at hx
      rw [parseDigitsAux] at h
      by_cases hc : c.isDigit
      · rw [if_pos hc] at h
        rcases hx with rfl | hx
        · exact hc
        · exact ih h x hx
      · rw [if_neg hc] at h; cases h

theorem parseDigits_all {ds : List Char} {n : Nat}
    (h : parseDigits ds = some n) : ∀ c ∈ ds, c.isDigit := by
  cases ds with
  | nil => intro c hc; cases hc
  | cons c rest => exact parseDigitsAux_all h

theorem parseDigits_ne_nil {ds : List Char} {n : Nat}
    (h : parseDigits ds = some n) : ds ≠ [] := by
  intro e; subst e; simp [parseDigits] at h

theorem not_sign_of_digit {c : Char} (h : c.isDigit) : c ≠ '+' ∧ c ≠ '-' := by
  constructor <;> (intro e; subst e; simp [Char.isDigit] at h)

/-- Python `int` on a string that is already all digits agrees with the
plain digit parse. -/
theorem pyIntChars_digits {ds : List Char} {n : Nat}
    (h : parseDigits ds = some n) : pyIntChars ds = some (n : Int) := by
  cases ds with
  | nil => exact absurd rfl (parseDigits_ne_nil h)
  | cons c rest =>
      have hdig := parseDigits_all h c (by simp)
      obtain ⟨h1, h2⟩ := not_sign_of_digit hdig
      unfold pyIntChars
      split
      · rename_i heq; rw [List.cons.injEq] at heq; exact absurd heq.1 h1
      · rename_i heq; rw [List.cons.injEq] at heq; exact absurd heq.1 h2
      · rw [h]; rfl

theorem lstripPM_digits {ds : List Char} (hds : ∀ c ∈ ds, c.isDigit)
    (hne : ds ≠ []) : lstripPM ds = ds := by
  cases ds with
  | nil => cases hne rfl
  | cons c rest =>
      have hc := not_sign_of_digit (hds c (by simp))
      simp [lstripPM, List.dropWhile_cons, hc.1, hc.2]

theorem lstripPM_sign_digits {s : Char} {ds : List Char} (hs : s = '+' ∨ s = '-')
    (hds : ∀ c ∈ ds, c.isDigit) : lstripPM (s :: ds) = ds := by
  have hpred : (s == '+' || s == '-') = true := by
    rcases hs with h | h <;> simp [h]
  cases ds with
  | nil => simp [lstripPM, List.dropWhile_cons, hpred]
  | cons c rest =>
      have hc := not_sign_of_digit (hds c (by simp))
      simp [lstripPM, List.dropWhile_cons, hpred, hc.1, hc.2]

/-- The three comparison shapes of `n_compare` on a digit string `N`. -/
theorem n_compare_cases (val : Int) {ds : List Char} {n : Nat}
    (h : parseDigits ds = some n) :
    n_compare val (String.mk ('+' :: ds)) = some (decide (val > (n : Int)))
      ∧ n_compare val (String.mk ('-' :: ds)) = some (decide (val < (n : Int)))
      ∧ n_compare val (String.mk ds) = some (decide (val = (n : Int))) := by
  have hpy := pyIntChars_digits h
  refine ⟨?_, ?_, ?_⟩
  · show (pyIntChars ds).map _ = _
    rw [hpy]; rfl
  · show (pyIntChars ds).map _ = _
    rw [hpy]; rfl
  · cases ds with
    | nil => exact absurd rfl (parseDigits_ne_nil h)
    | cons c rest =>
        have hdig := parseDigits_all h c (by simp)
        obtain ⟨h1, h2⟩ := not_sign_of_digit hdig
        unfold n_compare
        split
        · rename_i heq
          rw [show (String.mk (c :: rest)).data = c :: rest from rfl,
            List.cons.injEq] at heq
          exact absurd heq.1 h1
        · rename_i heq
          rw [show (String.mk (c :: rest)).data = c :: rest from rfl,
            List.cons.injEq] at heq
          exact absurd heq.1 h2
        · rw [show (String.mk (c :: rest)).data = c :: rest from rfl, hpy]
          rfl

end Pyfind

namespace Pfind

open Pyfind

theorem spanDigits_all {ds : List Char} (h : ∀ c ∈ ds, c.isDigit) :
    spanDigits ds = (ds, []) := by
  induction ds with
  | nil => rfl
  | cons c rest ih =>
      rw [spanDigits, if_pos (h c (by simp)),
        ih (fun x hx => h x (List.mem_cons_of_mem c hx))]

theorem signSplit_plus (l : List Char) : signSplit ('+' :: l) = (['+'], l) := by
  simp [signSplit]

theorem signSplit_minus (l : List Char) : signSplit ('-' :: l) = (['-'], l) := by
  simp [signSplit]

theorem signSplit_other {c : Char} (h1 : c ≠ '+') (h2 : c ≠ '-')
    (l : List Char) : signSplit (c :: l) = ([], c :: l) := by
  simp [signSplit, h1, h2]

/-- The size regex on a pure digit string, with or without a sign. -/
theorem regexSize_digits {ds : List Char} {n : Nat}
    (h : parseDigits ds = some n) :
    regexSize ('+' :: ds) = some (['+'], n, [])
      ∧ regexSize ('-' :: ds) = some (['-'], n, [])
      ∧ regexSize ds = some ([], n, []) := by
  have hall := parseDigits_all h
  have hspan := spanDigits_all hall
  refine ⟨?_, ?_, ?_⟩
  · simp only [regexSize, signSplit_plus, hspan, h]
    rfl
  · simp only [regexSize, signSplit_minus, hspan, h]
    rfl
  · cases ds with
    | nil => exact absurd rfl (parseDigits_ne_nil h)
    | cons c rest =>
        obtain ⟨h1, h2⟩ := not_sign_of_digit (hall c (by simp))
        simp only [regexSize, signSplit_other h1 h2, hspan, h]
        rfl

/-- `match_size` follows the same `+N` / `-N` / `N` convention. -/
theorem match_size_cases (val : Int) {ds : List Char} {n : Nat}
    (h : parseDigits ds = some n) :
    match_size val (some (String.mk ('+' :: ds))) = .ok (decide (val > (n : Int)))
      ∧ match_size val (some (String.mk ('-' :: ds))) = .ok (decide (val < (n : Int)))
      ∧ match_size val (some (String.mk ds)) = .ok (decide (val = (n : Int))) := by
  obtain ⟨r1, r2, r3⟩ := regexSize_digits h
  have hne : ds ≠ [] := parseDigits_ne_nil h
  refine ⟨?_, ?_, ?_⟩
  · rw [match_size, if_neg (by simp), parse_size_expr, if_neg (by simp)]
    rw [show (String.mk ('+' :: ds)).data = '+' :: ds from rfl, r1]
    norm_num
  · rw [match_size, if_neg (by simp), parse_size_expr, if_neg (by simp)]
    rw [show (String.mk ('-' :: ds)).data = '-' :: ds from rfl, r2]
    norm_num
    intro habs
    exact absurd habs (by decide)
  · rw [match_size, if_neg (by simpa using hne), parse_size_expr,
      if_neg (by simpa using hne)]
    rw [show (String.mk ds).data = ds from rfl, r3]
    norm_num

end Pfind

/-! ## Action-selection helpers (pyfind `main`) and the recognized tokens -/

namespace Pyfind

/-- Is a token one of the three action flags? -/
def isActionFlag (a : String) : Bool :=
  a == "-print" || a == "-print0" || a == "-delete"

/-- The action a single action flag names. -/
def flagAction (a : String) : PAction :=
  if a = "-print0" then .print0 else if a = "-delete" then .delete else .print

/-- Action selection as the specification words it: the action named by
the last occurrence of an action flag among the expression arguments, or
Print when no action flag occurs. -/
def lastActionSpec (args : List String) : PAction :=
  match (args.filter isActionFlag).getLast? with
  | none => .print
  | some a => flagAction a

theorem selectStep_action {a : String} (h : isActionFlag a = true) (acc : PAction) :
    selectStep acc a = flagAction a := by
  simp only [isActionFlag, Bool.or_eq_true, beq_iff_eq] at h
  rcases h with (rfl | rfl) | rfl <;> rfl

theorem selectStep_skip {a : String} (h : isActionFlag a = false) (acc : PAction) :
    selectStep acc a = acc := by
  simp only [isActionFlag, Bool.or_eq_false_iff, beq_eq_false_iff_ne] at h
  obtain ⟨⟨h1, h2⟩, h3⟩ := h
  simp [selectStep, h1, h2, h3]

/-- The `main` action loop computes the last-action-flag-wins selection,
for any starting action. -/
theorem select_go (args : List String) : ∀ acc : PAction,
    args.foldl selectStep acc =
      match (args.filter isActionFlag).getLast? with
      | none => acc
      | some a => flagAction a := by
  induction args with
  | nil => intro acc; rfl
  | cons a rest ih =>
      intro acc
      rw [List.foldl_cons, ih (selectStep acc a)]
      by_cases hf : isActionFlag a
      · rw [List.filter_cons_of_pos hf, List.getLast?_cons]
        cases hl : (rest.filter isActionFlag).getLast? with
        | none => exact selectStep_action hf acc
        | some b => rfl
      · rw [List.filter_cons_of_neg (by simpa using hf)]
        rw [selectStep_skip (by simpa using hf)]

/-- Every token the scanner recognizes (tests, actions, operators,
parentheses, informational flags). -/
def recognizedTokens : List String :=
  ["-name", "-iname", "-type", "-user", "-group", "-size", "-mtime", "-atime",
    "-ctime", "-print", "-print0", "-delete", "-true", "-false", "!", "-not",
    "-and", "-a", "-or", "-o", "(", ")", "--help", "--version"]

/-- Any token outside the recognized set falls through the whole `elif`
chain. -/
theorem tokKind_unrecognized {a : String} (hno : a ∉ recognizedTokens) :
    tokKind a = TokKind.tother := by
  simp only [recognizedTokens, List.mem_cons, List.not_mem_nil, or_false,
    not_or] at hno
  obtain ⟨g1, g2, g3, g4, g5, g6, g7, g8, g9, g10, g11, g12, g13, g14, g15,
    g16, g17, g18, g19, g20, g21, g22, g23, g24⟩ := hno
  simp [tokKind, g1, g2, g3, g4, g5, g6, g7, g8, g9, g10, g11, g12, g13, g14,
    g15, g16, g17, g18, g19, g20, g21, g22, g23, g24]

end Pyfind

/-! ## Traversal lemmas -/

namespace Pyfind

theorem emitEntries_comps (ev : String → Stat → Option Bool) (top : String)
    (comps : List String) :
    ∀ (l : List (String × Option Stat)) (x : List String × String × Stat),
      x ∈ (emitEntries ev top comps l).1 → x.1 = comps := by
  intro l
  induction l with
  | nil => intro x hx; simp [emitEntries] at hx
  | cons e rest ih =>
      intro x hx
      obtain ⟨nm, ost⟩ := e
      cases ost with
      | none =>
          rw [emitEntries] at hx
          exact ih x hx
      | some st =>
          rw [emitEntries] at hx
          cases hev : ev (joinPath top (comps ++ [nm])) st with
          | none => rw [hev] at hx; simp at hx
          | some b =>
              rw [hev] at hx
              simp only [] at hx
              cases b with
              | true =>
                  rw [if_pos rfl] at hx
                  rcases List.mem_cons.mp hx with rfl | hx2
                  · rfl
                  · exact ih x hx2
              | false =>
                  rw [if_neg (by simp)] at hx
                  exact ih x hx

mutual
theorem walkGo_emit_bound (m mx : Int) (ev : String → Stat → Option Bool)
    (top : String) :
    ∀ (d : FSDir) (comps : List String) (x : List String × String × Stat),
      x ∈ (walkGo m (some mx) ev top comps d).emitted →
      m ≤ (x.1.length : Int) ∧ (x.1.length : Int) ≤ mx
  | .mk subs fils, comps, x => by
    intro hx
    rw [walkGo] at hx
    by_cases hmin : m ≠ 0 ∧ ((comps.length : Int) < m)
    · rw [if_pos hmin] at hx
      simp only [] at hx
      exact walkSubs_emit_bound m mx ev top subs comps x hx
    · rw [if_neg hmin] at hx
      by_cases hmax : overMax (some mx) comps.length = true
      · rw [if_pos hmax] at hx
        simp at hx
      · rw [if_neg hmax] at hx
        have hle : m ≤ (comps.length : Int) := by
          rcases not_and_or.mp hmin with h0 | hlt
          · have : m = 0 := by omega
            omega
          · omega
        have hub : (comps.length : Int) ≤ mx := by
          simp only [overMax, decide_eq_true_eq] at hmax
          omega
        simp only [] at hx
        by_cases hcr : (emitEntries ev top comps (fils ++ subs.entriesOf)).2 = true
        · rw [if_pos hcr] at hx
          simp only [] at hx
          have := emitEntries_comps ev top comps (fils ++ subs.entriesOf) x hx
          rw [this]
          exact ⟨hle, hub⟩
        · rw [if_neg hcr] at hx
          simp only [] at hx
          rcases List.mem_append.mp hx with hx1 | hx2
          · have := emitEntries_comps ev top comps (fils ++ subs.entriesOf) x hx1
            rw [this]
            exact ⟨hle, hub⟩
          · exact walkSubs_emit_bound m mx ev top subs comps x hx2
theorem walkSubs_emit_bound (m mx : Int) (ev : String → Stat → Option Bool)
    (top : String) :
    ∀ (l : FSList) (comps : List String) (x : List String × String × Stat),
      x ∈ (walkSubs m (some mx) ev top comps l).emitted →
      m ≤ (x.1.length : Int) ∧ (x.1.length : Int) ≤ mx
  | .nil, comps, x => by intro hx; simp [walkSubs] at hx
  | .cons n st d rest, comps, x => by
    intro hx
    rw [walkSubs] at hx
    by_cases hcr : (walkGo m (some mx) ev top (comps ++ [n]) d).crashed = true
    · rw [if_pos hcr] at hx
      exact walkGo_emit_bound m mx ev top d (comps ++ [n]) x hx
    · rw [if_neg hcr] at hx
      simp only [seqW] at hx
      rw [if_neg hcr] at hx
      simp only [] at hx
      rcases List.mem_append.mp hx with hx1 | hx2
      · exact walkGo_emit_bound m mx ev top d (comps ++ [n]) x hx1
      · exact walkSubs_emit_bound m mx ev top rest comps x hx2
end

mutual
theorem walkGo_vis_bound (m mx : Int) (ev : String → Stat → Option Bool)
    (top : String) (hm : m ≤ mx + 1) :
    ∀ (d : FSDir) (comps : List String), (comps.length : Int) ≤ mx + 1 →
      ∀ v ∈ (walkGo m (some mx) ev top comps d).vis, (v.length : Int) ≤ mx + 1
  | .mk subs fils, comps => by
    intro hc v hv
    rw [walkGo] at hv
    by_cases hmin : m ≠ 0 ∧ ((comps.length : Int) < m)
    · rw [if_pos hmin] at hv
      simp only [] at hv
      rcases List.mem_cons.mp hv with rfl | hv2
      · exact hc
      · exact walkSubs_vis_bound m mx ev top hm subs comps (by omega) v hv2
    · rw [if_neg hmin] at hv
      by_cases hmax : overMax (some mx) comps.length = true
      · rw [if_pos hmax] at hv
        simp at hv
        rw [hv]
        exact hc
      · rw [if_neg hmax] at hv
        have hub : (comps.length : Int) ≤ mx := by
          simp only [overMax, decide_eq_true_eq] at hmax
          omega
        simp only [] at hv
        by_cases hcr : (emitEntries ev top comps (fils ++ subs.entriesOf)).2 = true
        · rw [if_pos hcr] at hv
          simp at hv
          rw [hv]
          exact hc
        · rw [if_neg hcr] at hv
          simp only [] at hv
          rcases List.mem_cons.mp hv with rfl | hv2
          · exact hc
          · exact walkSubs_vis_bound m mx ev top hm subs comps (by omega) v hv2
theorem walkSubs_vis_bound (m mx : Int) (ev : String → Stat → Option Bool)
    (top : String) (hm : m ≤ mx + 1) :
    ∀ (l : FSList) (comps : List String), (comps.length : Int) ≤ mx →
      ∀ v ∈ (walkSubs m (some mx) ev top comps l).vis, (v.length : Int) ≤ mx + 1
  | .nil, comps => by intro hc v hv; simp [walkSubs] at hv
  | .cons n st d rest, comps => by
    intro hc v hv
    rw [walkSubs] at hv
    have hchild : ((comps ++ [n]).length : Int) ≤ mx + 1 := by
      simp only [List.length_append, List.length_cons, List.length_nil]
      push_cast
      omega
    by_cases hcr : (walkGo m (some mx) ev top (comps ++ [n]) d).crashed = true
    · rw [if_pos hcr] at hv
      exact walkGo_vis_bound m mx ev top hm d (comps ++ [n]) hchild v hv
    · rw [if_neg hcr] at hv
      simp only [seqW] at hv
      rw [if_neg hcr] at hv
      simp only [] at hv
      rcases List.mem_append.mp hv with hv1 | hv2
      · exact walkGo_vis_bound m mx ev top hm d (comps ++ [n]) hchild v hv1
      · exact walkSubs_vis_bound m mx ev top hm rest comps hc v hv2
end

theorem walkGo_vis_self (m : Int) (M : Option Int) (ev : String → Stat → Option Bool)
    (top : String) (d : FSDir) (comps : List String) :
    comps ∈ (walkGo m M ev top comps d).vis := by
  obtain ⟨subs, fils⟩ := d
  rw [walkGo]
  by_cases hmin : m ≠ 0 ∧ ((comps.length : Int) < m)
  · rw [if_pos hmin]; simp
  · rw [if_neg hmin]
    by_cases hmax : overMax M comps.length = true
    · rw [if_pos hmax]; simp
    · rw [if_neg hmax]
      simp only []
      by_cases hcr : (emitEntries ev top comps (fils ++ subs.entriesOf)).2 = true
      · rw [if_pos hcr]; simp
      · rw [if_neg hcr]; simp

theorem walkSubs_names (m : Int) (M : Option Int) (ev : String → Stat → Option Bool)
    (top : String) :
    ∀ (l : FSList) (comps : List String),
      (walkSubs m M ev top comps l).crashed = false →
      ∀ n ∈ l.namesOf, comps ++ [n] ∈ (walkSubs m M ev top comps l).vis
  | .nil, comps => by intro hcr n hn; simp [FSList.namesOf] at hn
  | .cons n2 st d rest, comps => by
      intro hcr n hn
      rw [walkSubs] at hcr ⊢
      by_cases hc1 : (walkGo m M ev top (comps ++ [n2]) d).crashed = true
      · rw [if_pos hc1] at hcr
        exact absurd hcr (by simp [hc1])
      · rw [if_neg hc1] at hcr ⊢
        simp only [seqW] at hcr ⊢
        rw [if_neg hc1] at hcr ⊢
        simp only [] at hcr ⊢
        simp only [FSList.namesOf, List.mem_cons] at hn
        rcases hn with rfl | hn2
        · exact List.mem_append.mpr (Or.inl (walkGo_vis_self m M ev top d (comps ++ [n])))
        · exact List.mem_append.mpr
            (Or.inr (walkSubs_names m M ev top rest comps hcr n hn2))

theorem walkGo_min_descends (m : Int) (M : Option Int)
    (ev : String → Stat → Option Bool) (top : String) (subs : FSList)
    (fils : List (String × Option Stat)) (comps : List String)
    (hcr : (walkGo m M ev top comps (.mk subs fils)).crashed = false)
    (hm0 : m ≠ 0) (hlt : (comps.length : Int) < m) :
    ∀ n ∈ subs.namesOf, comps ++ [n] ∈ (walkGo m M ev top comps (.mk subs fils)).vis := by
  intro n hn
  rw [walkGo] at hcr ⊢
  rw [if_pos ⟨hm0, hlt⟩] at hcr ⊢
  simp only [] at hcr ⊢
  exact List.mem_cons.mpr (Or.inr (walkSubs_names m M ev top subs comps hcr n hn))

theorem walkGo_prune (m mx : Int) (ev : String → Stat → Option Bool)
    (top : String) (d : FSDir) (comps : List String)
    (hge : m ≤ (comps.length : Int)) (hgt : (comps.length : Int) > mx) :
    walkGo m (some mx) ev top comps d = ⟨[comps], [], false⟩ := by
  obtain ⟨subs, fils⟩ := d
  rw [walkGo]
  rw [if_neg (by omega)]
  rw [if_pos (by simp [overMax]; omega)]

end Pyfind

/-! ## Age-freedom lemmas (claim C9) -/

namespace Pyfind

/-- Does a predicate expression avoid every age test
(`-mtime`/`-atime`/`-ctime`)?  Only the age evaluators read the clock. -/
def noAgeB : PExpr → Bool
  | .mtime _ => false
  | .atime _ => false
  | .ctime _ => false
  | .and l r => noAgeB l && noAgeB r
  | .or l r => noAgeB l && noAgeB r
  | .not e => noAgeB e
  | _ => true

/-- Evaluation of an age-free predicate does not depend on the clock. -/
theorem evalExpr_time_indep (now1 now2 : Int) (path : String) (st : Stat) :
    ∀ e : PExpr, noAgeB e = true →
      evalExpr now1 path st e = evalExpr now2 path st e := by
  intro e
  induction e with
  | true_ => intro h; rfl
  | false_ => intro h; rfl
  | name pat => intro h; rfl
  | iname pat => intro h; rfl
  | type_ t => intro h; rfl
  | user uid => intro h; rfl
  | group gid => intro h; rfl
  | size spec => intro h; rfl
  | mtime spec => intro h; simp [noAgeB] at h
  | atime spec => intro h; simp [noAgeB] at h
  | ctime spec => intro h; simp [noAgeB] at h
  | and l r ihl ihr =>
      intro h
      simp only [noAgeB, Bool.and_eq_true] at h
      simp only [evalExpr]
      rw [ihl h.1, ihr h.2]
  | or l r ihl ihr =>
      intro h
      simp only [noAgeB, Bool.and_eq_true] at h
      simp only [evalExpr]
      rw [ihl h.1, ihr h.2]
  | not e ih =>
      intro h
      simp only [noAgeB] at h
      simp only [evalExpr]
      rw [ih h]

/-- A token is classified `tother`, or it is one of the recognized
tokens. -/
theorem tokKind_cases (a : String) :
    tokKind a = TokKind.tother ∨ a ∈ recognizedTokens := by
  by_cases h : a ∈ recognizedTokens
  · exact Or.inr h
  · exact Or.inl (tokKind_unrecognized h)

/-- Only the literal tokens `-mtime` / `-atime` / `-ctime` classify as
age tests. -/
theorem tokKind_age_inv (a : String) :
    (tokKind a = TokKind.tmtime → a = "-mtime")
      ∧ (tokKind a = TokKind.tatime → a = "-atime")
      ∧ (tokKind a = TokKind.tctime → a = "-ctime") := by
  rcases tokKind_cases a with hother | hmem
  · refine ⟨?_, ?_, ?_⟩ <;> (intro h; rw [hother] at h; cases h)
  · simp only [recognizedTokens, List.mem_cons, List.not_mem_nil, or_false] at hmem
    rcases hmem with rfl|rfl|rfl|rfl|rfl|rfl|rfl|rfl|rfl|rfl|rfl|rfl|rfl|rfl|rfl|rfl|rfl|rfl|rfl|rfl|rfl|rfl|rfl|rfl
    all_goals exact ⟨fun h => by first | rfl | exact absurd h (by decide),
      fun h => by first | rfl | exact absurd h (by decide),
      fun h => by first | rfl | exact absurd h (by decide)⟩

/-- A scan over a token list free of `-mtime` / `-atime` / `-ctime`
builds an age-free predicate (when started from an age-free
accumulator). -/
theorem parse_go_noAge (pdb gdb : String → Option Nat) :
    ∀ (fuel : Nat) (args : List String) (i : Nat) (acc e : PExpr) (k : Nat),
      "-mtime" ∉ args → "-atime" ∉ args → "-ctime" ∉ args →
      noAgeB acc = true →
      parse_go pdb gdb fuel acc args i = .ok (e, k) → noAgeB e = true := by
  intro fuel
  induction fuel with
  | zero =>
      intro args i acc e k hm ha hc hacc hp
      rw [parse_go] at hp
      injection hp with hpair
      injection hpair with hacc2 hik
      rw [← hacc2]
      exact hacc
  | succ fuel ih =>
      intro args i acc e k hm ha hc hacc hp
      rw [parse_go] at hp
      cases hdrop : args.drop i with
      | nil =>
          rw [hdrop] at hp
          simp only [parse_scan] at hp
          injection hp with hpair
          injection hpair with hacc2 hik
          rw [← hacc2]
          exact hacc
      | cons a rest =>
          rw [hdrop] at hp
          simp only [parse_scan] at hp
          have hina : a ∈ args := List.drop_subset i args (hdrop ▸ List.mem_cons_self a rest)
          have hdm : "-mtime" ∉ args.drop (i + 1) :=
            fun hmem => hm (List.drop_subset (i + 1) args hmem)
          have hda : "-atime" ∉ args.drop (i + 1) :=
            fun hmem => ha (List.drop_subset (i + 1) args hmem)
          have hdc : "-ctime" ∉ args.drop (i + 1) :=
            fun hmem => hc (List.drop_subset (i + 1) args hmem)
          cases hk : tokKind a
          all_goals rw [hk] at hp
          all_goals simp only [branchGo] at hp
          all_goals first
          | -- age flags cannot occur in an age-free token list
            (exfalso
             first
             | exact hm (((tokKind_age_inv a).1 hk) ▸ hina)
             | exact ha (((tokKind_age_inv a).2.1 hk) ▸ hina)
             | exact hc (((tokKind_age_inv a).2.2 hk) ▸ hina))
          | -- one-token branches
            exact ih args (i + 1) acc e k hm ha hc hacc hp
          | -- `--help` / `--version`
            simp at hp
          | -- `-true` / `-false`
            (refine ih args (i + 1) _ e k hm ha hc ?_ hp
             simp [noAgeB, hacc])
          | -- two-argument test flags (name/iname/type/size)
            (cases rest with
            | nil => simp [twoTok] at hp
            | cons p r2 =>
                simp only [twoTok] at hp
                refine ih args (i + 2) _ e k hm ha hc ?_ hp
                simp [noAgeB, hacc])
          | -- `-user` / `-group`
            (cases rest with
            | nil => simp [dbTok] at hp
            | cons u r2 =>
                simp only [dbTok] at hp
                split_ifs at hp
                · refine ih args (i + 2) _ e k hm ha hc ?_ hp
                  simp [noAgeB, hacc]
                · first
                  | (cases hu : pdb u with
                    | some uid =>
                        rw [hu] at hp
                        simp only [dbRes] at hp
                        refine ih args (i + 2) _ e k hm ha hc ?_ hp
                        simp [noAgeB, hacc]
                    | none => rw [hu] at hp; simp [dbRes] at hp)
                  | (cases hu : gdb u with
                    | some gid =>
                        rw [hu] at hp
                        simp only [dbRes] at hp
                        refine ih args (i + 2) _ e k hm ha hc ?_ hp
                        simp [noAgeB, hacc]
                    | none => rw [hu] at hp; simp [dbRes] at hp))
          | -- operators
            (cases hin : parse_go pdb gdb fuel .true_ (args.drop (i + 1)) 0 with
            | error ex => rw [hin] at hp; simp [opRes] at hp
            | ok pr =>
                obtain ⟨sub, skip⟩ := pr
                rw [hin] at hp
                simp only [opRes] at hp
                have hsub : noAgeB sub = true :=
                  ih (args.drop (i + 1)) 0 .true_ sub skip hdm hda hdc rfl hin
                refine ih args (i + skip + 1) _ e k hm ha hc ?_ hp
                simp [noAgeB, hacc, hsub])

end Pyfind

/-! ## pfind traversal lemmas (claim C10) -/

namespace Pfind

/-- A valid (or absent) size spec can never make `match_size` raise. -/
theorem match_size_ok (size : Option String) (h : sizeValid size = true) (v : Int) :
    ∃ b, match_size v size = .ok b := by
  cases size with
  | none => exact ⟨true, rfl⟩
  | some s =>
      simp only [sizeValid, Bool.or_eq_true] at h
      by_cases he : s.data = []
      · rw [match_size, if_pos he]
        exact ⟨true, rfl⟩
      · rcases h with h | h
        · exact absurd (by simpa using h) he
        · rw [Option.isSome_iff_exists] at h
          obtain ⟨⟨sign, n, unit⟩, hr⟩ := h
          rw [match_size, if_neg he, parse_size_expr, if_neg he, hr]
          simp only []
          split_ifs <;> exact ⟨_, rfl⟩

/-- With a valid (or absent) size spec the filename loop never aborts. -/
theorem fileLoop_noerr (name size : Option String) (h : sizeValid size = true) :
    ∀ (fils : List (String × Int)) (dirpath : String),
      (fileLoop name size dirpath fils).2 = none := by
  intro fils
  induction fils with
  | nil => intro dirpath; rfl
  | cons e rest ih =>
      intro dirpath
      obtain ⟨f, sz⟩ := e
      rw [fileLoop]
      by_cases hm : matchName name f = true
      · rw [if_neg (by simp [hm])]
        by_cases hs : sizePresent size = true
        · rw [if_pos hs]
          obtain ⟨b, hb⟩ := match_size_ok size h sz
          rw [hb]
          cases b with
          | true => exact ih dirpath
          | false => exact ih dirpath
        · rw [if_neg hs]
          exact ih dirpath
      · rw [if_pos (by simp at hm; simp [hm])]
        exact ih dirpath

mutual
/-- Under a directory-passing type filter and a valid size spec, the
traversal completes without raising. -/
theorem travGo_noerr (name type_ size : Option String)
    (hok : type_ = some "d" ∨ sizeValid size = true) :
    ∀ (t : PDir) (dirpath : String),
      (travGo name type_ size dirpath t).2 = none
  | .mk subs fils, dirpath => by
      rw [travGo]
      have hfr : (if typeFiles type_ = true
          then fileLoop name size dirpath fils else ([], none)).2 = none := by
        rcases hok with htd | hsv
        · rw [htd]
          rfl
        · by_cases htf : typeFiles type_ = true
          · rw [if_pos htf]
            exact fileLoop_noerr name size hsv fils dirpath
          · rw [if_neg htf]
      rw [hfr]
      simp only []
      exact travList_noerr name type_ size hok subs dirpath
/-- List version of `travGo_noerr`. -/
theorem travList_noerr (name type_ size : Option String)
    (hok : type_ = some "d" ∨ sizeValid size = true) :
    ∀ (l : PList) (dirpath : String),
      (travList name type_ size dirpath l).2 = none
  | .nil, dirpath => rfl
  | .cons n d rest, dirpath => by
      rw [travList]
      rw [travGo_noerr name type_ size hok d (pjoin dirpath n)]
      simp only []
      exact travList_noerr name type_ size hok rest dirpath
end

/-- What the directory loop yields for a longer list includes what it
yields for the tail. -/
theorem dirLoop_tail (name : Option String) (dirpath : String) (n : String)
    (d : PDir) (rest : PList) {x : String} (hx : x ∈ dirLoop name dirpath rest) :
    x ∈ dirLoop name dirpath (.cons n d rest) := by
  rw [dirLoop]
  by_cases hm : matchName name n = true
  · rw [if_pos hm]
    exact List.mem_cons_of_mem _ hx
  · rw [if_neg hm]
    exact hx

theorem joinPath_cons (dirpath c : String) (rest : List String) :
    Pyfind.joinPath dirpath (c :: rest) = Pyfind.joinPath (pjoin dirpath c) rest := by
  rfl

mutual
/-- Every directory in the tree whose base name passes the name filter is
yielded, independently of the size argument, as long as the type filter
admits directories and the traversal does not abort. -/
theorem travGo_dirs (name type_ size : Option String)
    (htd : typeDirs type_ = true)
    (hok : type_ = some "d" ∨ sizeValid size = true) :
    ∀ (t : PDir) (dirpath : String) (p : List String × String),
      p ∈ allDirsD t → matchName name p.2 = true →
      Pyfind.joinPath dirpath (p.1 ++ [p.2]) ∈ (travGo name type_ size dirpath t).1
  | .mk subs fils, dirpath, p => by
      intro hp hm
      rw [travGo]
      have hfr : (if typeFiles type_ = true
          then fileLoop name size dirpath fils else ([], none)).2 = none := by
        rcases hok with htd2 | hsv
        · rw [htd2]
          rfl
        · by_cases htf : typeFiles type_ = true
          · rw [if_pos htf]
            exact fileLoop_noerr name size hsv fils dirpath
          · rw [if_neg htf]
      rw [hfr]
      simp only []
      rw [if_pos htd]
      have hmem := travList_dirs name type_ size htd hok subs dirpath p hp hm
      rcases List.mem_append.mp hmem with h1 | h2
      · exact List.mem_append.mpr (Or.inl (List.mem_append.mpr (Or.inl h1)))
      · exact List.mem_append.mpr (Or.inr h2)
/-- List version of `travGo_dirs`: a matching directory below the
subdirectory list appears either among this directory's own yields or in
the recursive traversal. -/
theorem travList_dirs (name type_ size : Option String)
    (htd : typeDirs type_ = true)
    (hok : type_ = some "d" ∨ sizeValid size = true) :
    ∀ (l : PList) (dirpath : String) (p : List String × String),
      p ∈ allDirsL l → matchName name p.2 = true →
      Pyfind.joinPath dirpath (p.1 ++ [p.2]) ∈
        dirLoop name dirpath l ++ (travList name type_ size dirpath l).1
  | .nil, dirpath, p => by intro hp hm; simp [allDirsL] at hp
  | .cons n d rest, dirpath, p => by
      intro hp hm
      rw [allDirsL] at hp
      rw [travList, travGo_noerr name type_ size hok d (pjoin dirpath n)]
      simp only []
      rcases List.mem_cons.mp hp with rfl | hp2
      · -- the head directory itself
        rw [dirLoop, if_pos hm]
        exact List.mem_append.mpr (Or.inl (List.mem_cons_self _ _))
      · rcases List.mem_append.mp hp2 with hdeep | hrest
        · -- a directory deeper inside the head subtree
          obtain ⟨q, hq, rfl⟩ := List.mem_map.mp hdeep
          rw [show (n :: q.1, q.2).1 ++ [(n :: q.1, q.2).2] = n :: (q.1 ++ [q.2])
            from rfl]
          rw [joinPath_cons]
          have := travGo_dirs name type_ size htd hok d (pjoin dirpath n) q hq hm
          exact List.mem_append.mpr
            (Or.inr (List.mem_append.mpr (Or.inl this)))
        · -- a directory in the tail subdirectory list
          have := travList_dirs name type_ size htd hok rest dirpath p hrest hm
          rcases List.mem_append.mp this with h1 | h2
          · exact List.mem_append.mpr (Or.inl (dirLoop_tail name dirpath n d rest h1))
          · exact List.mem_append.mpr
              (Or.inr (List.mem_append.mpr (Or.inr h2)))
end

end Pfind

/-! ## Claim theorems -/

open Pyfind Pfind

/-- An empty user/group database (no resolvable names). -/
def emptyDb : String → Option Nat := fun _ => none

/-- A sample regular-file stat used by concrete runs. -/
def stReg : Pyfind.Stat := ⟨.reg, 10, 0, 0, 0, 0, 0⟩

/-- C1: for every integer value `v` and every digit string `N`, the
comparison spec `+N` holds iff `v > N`, `-N` iff `v < N`, and bare `N`
iff `v = N`; this one convention governs `n_compare` in pyfind (and
through it the size predicate and all three age predicates) as well as
`match_size` in pfind. -/
theorem C1_comparison_convention (val : Int) (ds : List Char) (n : Nat)
    (h : Pyfind.parseDigits ds = some n) (now : Int) (path : String)
    (st : Pyfind.Stat) :
    (Pyfind.n_compare val (String.mk ('+' :: ds)) = some (decide (val > (n : Int)))
      ∧ Pyfind.n_compare val (String.mk ('-' :: ds)) = some (decide (val < (n : Int)))
      ∧ Pyfind.n_compare val (String.mk ds) = some (decide (val = (n : Int))))
    ∧ (Pfind.match_size val (some (String.mk ('+' :: ds))) = .ok (decide (val > (n : Int)))
      ∧ Pfind.match_size val (some (String.mk ('-' :: ds))) = .ok (decide (val < (n : Int)))
      ∧ Pfind.match_size val (some (String.mk ds)) = .ok (decide (val = (n : Int))))
    ∧ (Pyfind.evalExpr now path st (.size (String.mk ('+' :: ds)))
        = some (decide (st.st_size > (n : Int)))
      ∧ Pyfind.evalExpr now path st (.size (String.mk ('-' :: ds)))
        = some (decide (st.st_size < (n : Int)))
      ∧ Pyfind.evalExpr now path st (.size (String.mk ds))
        = some (decide (st.st_size = (n : Int))))
    ∧ (Pyfind.evalExpr now path st (.mtime (String.mk ('+' :: ds)))
        = some (decide (Pyfind.ageDays now st.st_mtime > (n : Int)))
      ∧ Pyfind.evalExpr now path st (.atime (String.mk ('-' :: ds)))
        = some (decide (Pyfind.ageDays now st.st_atime < (n : Int)))
      ∧ Pyfind.evalExpr now path st (.ctime (String.mk ds))
        = some (decide (Pyfind.ageDays now st.st_ctime = (n : Int)))) := by
  have hall := Pyfind.parseDigits_all h
  have hne := Pyfind.parseDigits_ne_nil h
  have hpy := Pyfind.pyIntChars_digits h
  refine ⟨Pyfind.n_compare_cases val h, Pfind.match_size_cases val h, ?_, ?_⟩
  · exact ⟨(Pyfind.n_compare_cases st.st_size h).1,
      (Pyfind.n_compare_cases st.st_size h).2.1,
      (Pyfind.n_compare_cases st.st_size h).2.2⟩
  · refine ⟨?_, ?_, ?_⟩
    · show (match Pyfind.pyIntChars (Pyfind.lstripPM ('+' :: ds)) with
        | none => none
        | some _ => Pyfind.n_compare (Pyfind.ageDays now st.st_mtime)
            (String.mk ('+' :: ds))) = _
      rw [Pyfind.lstripPM_sign_digits (Or.inl rfl) hall, hpy]
      exact (Pyfind.n_compare_cases (Pyfind.ageDays now st.st_mtime) h).1
    · show (match Pyfind.pyIntChars (Pyfind.lstripPM ('-' :: ds)) with
        | none => none
        | some _ => Pyfind.n_compare (Pyfind.ageDays now st.st_atime)
            (String.mk ('-' :: ds))) = _
      rw [Pyfind.lstripPM_sign_digits (Or.inr rfl) hall, hpy]
      exact (Pyfind.n_compare_cases (Pyfind.ageDays now st.st_atime) h).2.1
    · show (match Pyfind.pyIntChars (Pyfind.lstripPM ds) with
        | none => none
        | some _ => Pyfind.n_compare (Pyfind.ageDays now st.st_ctime)
            (String.mk ds)) = _
      rw [Pyfind.lstripPM_digits hall hne, hpy]
      exact (Pyfind.n_compare_cases (Pyfind.ageDays now st.st_ctime) h).2.2

/-- Witness for C1 at the digit string `42` and value `50`. -/
theorem C1_comparison_convention_witness :
    Pyfind.parseDigits ['4', '2'] = some 42
      ∧ Pyfind.n_compare 50 (String.mk ['+', '4', '2'])
          = some (decide ((50 : Int) > (42 : Int)))
      ∧ Pfind.match_size 50 (some (String.mk ['-', '4', '2']))
          = .ok (decide ((50 : Int) < (42 : Int))) :=
  ⟨by decide,
    ((C1_comparison_convention 50 ['4', '2'] 42 (by decide) 0 "" stReg).1).1,
    ((C1_comparison_convention 50 ['4', '2'] 42 (by decide) 0 "" stReg).2.1).2.1⟩

/-- C2: when the scan of `parse_expr` reaches a `!` or `-not` token at
position `i`, it parses the entire remainder of the token list after the
operator as one fresh sub-expression, negates it, AND-combines the
negation with the predicate accumulated so far, and then consumes all
remaining tokens (the returned loop counter is the full length). -/
theorem C2_not_scans_to_end (pdb gdb : String → Option Nat)
    (args : List String) (i : Nat) (acc : PExpr) (a : String) (rest : List String)
    (hdrop : args.drop i = a :: rest) (ha : a = "!" ∨ a = "-not")
    (fuel : Nat) (hf : args.length - i < fuel + 1) :
    parse_go pdb gdb (fuel + 1) acc args i =
      match parse_expr pdb gdb rest with
      | .ok (sub, _) => .ok (.and acc (.not sub), args.length)
      | .error ex => .error ex := by
  have hlen : args.length - i = rest.length + 1 := by
    have hx := List.length_drop i args
    rw [hdrop] at hx
    simpa using hx.symm
  have hdrop1 : args.drop (i + 1) = rest := by
    rw [← List.tail_drop, hdrop, List.tail_cons]
  have hk : tokKind a = TokKind.tnot := by
    rcases ha with rfl | rfl <;> decide
  rw [parse_go, hdrop]
  simp only [parse_scan]
  rw [hk]
  simp only [branchGo]
  rw [hdrop1]
  have hmono : parse_go pdb gdb fuel PExpr.true_ rest 0 =
      parse_expr pdb gdb rest :=
    parse_go_mono pdb gdb fuel (rest.length + 1) rest 0 PExpr.true_
      (by omega) (by omega)
  rw [hmono]
  cases hin : parse_expr pdb gdb rest with
  | error ex => simp only [opRes]
  | ok pr =>
      obtain ⟨sub, skip⟩ := pr
      simp only [opRes]
      have hskip : skip = rest.length :=
        parse_go_consumes pdb gdb (rest.length + 1) rest 0 PExpr.true_ sub skip
          (by omega) (Nat.zero_le _) hin
      rw [show i + skip + 1 = args.length by omega]
      exact parse_go_at_end pdb gdb fuel _ args args.length (le_refl _)


/-- Witness for C2 on the token list `-false ! -name x` at position 1. -/
theorem C2_witness :
    (["-false", "!", "-name", "x"].drop 1 = "!" :: ["-name", "x"]
      ∧ (4 : Nat) - 1 < 3 + 1)
    ∧ parse_go emptyDb emptyDb 4 (.and .true_ .false_) ["-false", "!", "-name", "x"] 1 =
        match parse_expr emptyDb emptyDb ["-name", "x"] with
        | .ok (sub, _) => .ok (.and (.and .true_ .false_) (.not sub), 4)
        | .error ex => .error ex :=
  ⟨⟨by decide, by decide⟩,
    C2_not_scans_to_end emptyDb emptyDb ["-false", "!", "-name", "x"] 1
      (.and .true_ .false_) "!" ["-name", "x"] (by decide) (Or.inl rfl) 3 (by decide)⟩


/-- C3: when the scan of `parse_expr` reaches a `-or` or `-o` token at
position `i`, it parses the entire remainder of the token list as a fresh
sub-expression and OR-combines it with everything accumulated so far, the
OR's right operand extending to the end of the stream; the scan then
consumes all remaining tokens. -/
theorem C3_or_scans_to_end (pdb gdb : String → Option Nat)
    (args : List String) (i : Nat) (acc : PExpr) (a : String) (rest : List String)
    (hdrop : args.drop i = a :: rest) (ha : a = "-or" ∨ a = "-o")
    (fuel : Nat) (hf : args.length - i < fuel + 1) :
    parse_go pdb gdb (fuel + 1) acc args i =
      match parse_expr pdb gdb rest with
      | .ok (sub, _) => .ok (.or acc sub, args.length)
      | .error ex => .error ex := by
  have hlen : args.length - i = rest.length + 1 := by
    have hx := List.length_drop i args
    rw [hdrop] at hx
    simpa using hx.symm
  have hdrop1 : args.drop (i + 1) = rest := by
    rw [← List.tail_drop, hdrop, List.tail_cons]
  have hk : tokKind a = TokKind.tor := by
    rcases ha with rfl | rfl <;> decide
  rw [parse_go, hdrop]
  simp only [parse_scan]
  rw [hk]
  simp only [branchGo]
  rw [hdrop1]
  have hmono : parse_go pdb gdb fuel PExpr.true_ rest 0 =
      parse_expr pdb gdb rest :=
    parse_go_mono pdb gdb fuel (rest.length + 1) rest 0 PExpr.true_
      (by omega) (by omega)
  rw [hmono]
  cases hin : parse_expr pdb gdb rest with
  | error ex => simp only [opRes]
  | ok pr =>
      obtain ⟨sub, skip⟩ := pr
      simp only [opRes]
      have hskip : skip = rest.length :=
        parse_go_consumes pdb gdb (rest.length + 1) rest 0 PExpr.true_ sub skip
          (by omega) (Nat.zero_le _) hin
      rw [show i + skip + 1 = args.length by omega]
      exact parse_go_at_end pdb gdb fuel _ args args.length (le_refl _)


/-- Witness for C3 on the token list `-false -or -name x` at position 1. -/
theorem C3_witness :
    (["-false", "-or", "-name", "x"].drop 1 = "-or" :: ["-name", "x"]
      ∧ (4 : Nat) - 1 < 3 + 1)
    ∧ Pyfind.parse_go emptyDb emptyDb 4 (.and .true_ .false_)
        ["-false", "-or", "-name", "x"] 1 =
        match Pyfind.parse_expr emptyDb emptyDb ["-name", "x"] with
        | .ok (sub, _) => .ok (.or (.and .true_ .false_) sub, 4)
        | .error ex => .error ex :=
  ⟨⟨by decide, by decide⟩,
    C3_or_scans_to_end emptyDb emptyDb ["-false", "-or", "-name", "x"] 1
      (.and .true_ .false_) "-or" ["-name", "x"] (by decide) (Or.inl rfl) 3
      (by decide)⟩


/-- C4 (evidence of the code bug): a malformed `-size` spec is accepted at
predicate construction time — `parse_expr` succeeds — and the failure
(`ValueError` from `int`, modelled as `none`) first surfaces while
evaluating the predicate against an entry; an unrecognized `-type` kind
letter is also accepted at construction and silently evaluates to
`False`, never failing at all. -/
theorem C4_malformed_spec_defers_to_evaluation :
    parse_expr emptyDb emptyDb ["-size", "abc"] = .ok (.and .true_ (.size "abc"), 2)
      ∧ evalExpr 0 "/r/f" stReg (.and .true_ (.size "abc")) = none
      ∧ parse_expr emptyDb emptyDb ["-type", "x"] = .ok (.and .true_ (.type_ "x"), 2)
      ∧ evalExpr 0 "/r/f" stReg (.and .true_ (.type_ "x")) = some false := by
  decide


/-- C6: exactly one action is active per run — `select_action` computes
the action named by the last occurrence of an action flag among the
expression arguments (Print when none occurs), and inside `parse_expr`
each action flag consumes only itself (the scan continues at `i + 1` with
the accumulated predicate unchanged). -/
theorem C6_last_action_flag_wins (args : List String) :
    select_action args = lastActionSpec args
      ∧ ∀ (pdb gdb : String → Option Nat) (fuel : Nat) (acc : PExpr) (i : Nat)
          (rest : List String),
          (args.drop i = "-print" :: rest ∨ args.drop i = "-print0" :: rest
            ∨ args.drop i = "-delete" :: rest) →
          parse_go pdb gdb (fuel + 1) acc args i =
            parse_go pdb gdb fuel acc args (i + 1) := by
  constructor
  · rw [select_action, select_go args PAction.print, lastActionSpec]
  · intro pdb gdb fuel acc i rest h
    rcases h with hdrop | hdrop | hdrop
    · rw [parse_go, hdrop]
      simp only [parse_scan]
      rw [show tokKind "-print" = TokKind.tprint by decide]
      simp only [branchGo]
    · rw [parse_go, hdrop]
      simp only [parse_scan]
      rw [show tokKind "-print0" = TokKind.tprint0 by decide]
      simp only [branchGo]
    · rw [parse_go, hdrop]
      simp only [parse_scan]
      rw [show tokKind "-delete" = TokKind.tdelete by decide]
      simp only [branchGo]

theorem C6_witness :
    select_action ["-delete", "-print0"] = lastActionSpec ["-delete", "-print0"]
      ∧ parse_go emptyDb emptyDb 3 .true_ ["-delete", "-print0"] 0 =
          parse_go emptyDb emptyDb 2 .true_ ["-delete", "-print0"] 1 :=
  ⟨(C6_last_action_flag_wins ["-delete", "-print0"]).1,
    (C6_last_action_flag_wins ["-delete", "-print0"]).2 emptyDb emptyDb 2 .true_ 0
      ["-print0"] (Or.inr (Or.inr (by decide)))⟩


/-- C7 (evidence of the code bug): an argument list whose final token is a
test flag requiring a following argument makes the program die with an
uncaught `IndexError` from `args[i+1]` — an out-of-range index fault, not
a clean fail-fast error message. -/
theorem C7_dangling_flag_is_index_fault :
    parse_expr emptyDb emptyDb ["-name"] = .error .indexError
      ∧ parse_expr emptyDb emptyDb ["-type"] = .error .indexError
      ∧ parse_expr emptyDb emptyDb ["x", "-name", "y", "-size"] = .error .indexError := by
  decide


/-- C8: a token that is not a recognized test, action, operator,
parenthesis, or informational flag is silently skipped: exactly one token
is consumed, the accumulated predicate is unchanged, and the action
selection of `main` is also unchanged by that token. -/
theorem C8_unrecognized_token_skipped (pdb gdb : String → Option Nat)
    (fuel : Nat) (acc : PExpr) (args : List String) (i : Nat) (a : String)
    (rest : List String) (hdrop : args.drop i = a :: rest)
    (hno : a ∉ recognizedTokens) :
    parse_go pdb gdb (fuel + 1) acc args i = parse_go pdb gdb fuel acc args (i + 1)
      ∧ ∀ act : PAction, selectStep act a = act := by
  constructor
  · rw [parse_go, hdrop]
    simp only [parse_scan]
    rw [tokKind_unrecognized hno]
    simp only [branchGo]
  · intro act
    apply selectStep_skip
    simp only [isActionFlag, Bool.or_eq_false_iff, beq_eq_false_iff_ne]
    refine ⟨⟨?_, ?_⟩, ?_⟩ <;> (intro h; subst h; exact hno (by simp [recognizedTokens]))

theorem C8_witness :
    (["-foo", "-print"].drop 0 = "-foo" :: ["-print"] ∧ "-foo" ∉ recognizedTokens)
      ∧ parse_go emptyDb emptyDb 3 .true_ ["-foo", "-print"] 0 =
          parse_go emptyDb emptyDb 2 .true_ ["-foo", "-print"] 1
      ∧ selectStep PAction.delete "-foo" = PAction.delete :=
  ⟨⟨by decide, by simp [recognizedTokens]⟩,
    (C8_unrecognized_token_skipped emptyDb emptyDb 2 .true_ ["-foo", "-print"] 0
      "-foo" ["-print"] (by decide) (by simp [recognizedTokens])).1,
    (C8_unrecognized_token_skipped emptyDb emptyDb 2 .true_ ["-foo", "-print"] 0
      "-foo" ["-print"] (by decide) (by simp [recognizedTokens])).2 PAction.delete⟩

/-- C5 (amended: the depth-bound claim under the proviso
`mindepth ≤ maxdepth`): every emitted entry has depth `d` with
`mindepth ≤ d ≤ maxdepth`; no directory deeper than `maxdepth + 1` is
ever visited (pruning stops descent); a directory whose depth is below
`mindepth` is still descended into (all its subdirectories are visited,
barring a crash); and a directory at depth above `maxdepth` and not below
`mindepth` is visited without emitting anything and without descending. -/
theorem C5_depth_bounds_amended (m mx : Nat) (hm : m ≤ mx)
    (ev : String → Stat → Option Bool) (top : String) (tree : FSDir) :
    (∀ x ∈ (walkGo (m : Int) (some (mx : Int)) ev top [] tree).emitted,
        m ≤ x.1.length ∧ x.1.length ≤ mx)
      ∧ (∀ v ∈ (walkGo (m : Int) (some (mx : Int)) ev top [] tree).vis,
          v.length ≤ mx + 1)
      ∧ (∀ (comps : List String) (subs : FSList)
          (fils : List (String × Option Stat)),
          (walkGo (m : Int) (some (mx : Int)) ev top comps (.mk subs fils)).crashed
              = false →
          m ≠ 0 → comps.length < m →
          ∀ n ∈ subs.namesOf,
            comps ++ [n] ∈
              (walkGo (m : Int) (some (mx : Int)) ev top comps (.mk subs fils)).vis)
      ∧ (∀ (comps : List String) (d : FSDir), m ≤ comps.length →
          comps.length > mx →
          walkGo (m : Int) (some (mx : Int)) ev top comps d = ⟨[comps], [], false⟩) := by
  refine ⟨?_, ?_, ?_, ?_⟩
  · intro x hx
    have := walkGo_emit_bound (m : Int) (mx : Int) ev top tree [] x hx
    omega
  · intro v hv
    have := walkGo_vis_bound (m : Int) (mx : Int) ev top (by omega)
      tree [] (by simp; omega) v hv
    omega
  · intro comps subs fils hcr hm0 hlt
    exact walkGo_min_descends (m : Int) (some (mx : Int)) ev top subs fils comps
      hcr (by omega) (by omega)
  · intro comps d hge hgt
    exact walkGo_prune (m : Int) (mx : Int) ev top d comps (by omega)
      (by omega)


/-- The three-level tree `top/a/b` used by the C5 counterexample and
witness. -/
def cxTreeC5 : FSDir :=
  .mk (.cons "a" none (.mk (.cons "b" none (.mk .nil []) .nil) []) .nil) []


/-- C5 counterexample: with `mindepth 2` and `maxdepth 0` the directory
`a` has depth 1, which exceeds maxdepth 0, so the claim as stated demands
that its subdirectory list be pruned with no further descent — yet its
subdirectory `a/b` is still visited, because the mindepth `continue` in
`walk` fires before the maxdepth pruning and never clears `dirs`. -/
theorem C5_counterexample :
    (walkGo 2 (some 0) (fun _ _ => some true) "t" [] cxTreeC5).vis
        = [[], ["a"], ["a", "b"]]
      ∧ ["a"] ∈ (walkGo 2 (some 0) (fun _ _ => some true) "t" [] cxTreeC5).vis
      ∧ (((["a"] : List String).length : Int) > 0)
      ∧ ["a", "b"] ∈ (walkGo 2 (some 0) (fun _ _ => some true) "t" [] cxTreeC5).vis := by
  refine ⟨by decide, by decide, by decide, by decide⟩


/-- Witness for C5 at `mindepth 1`, `maxdepth 2`. -/
theorem C5_witness :
    (1 : Nat) ≤ 2
      ∧ ((∀ x ∈ (walkGo ((1 : Nat) : Int) (some ((2 : Nat) : Int))
            (fun _ _ => some true) "t" [] cxTreeC5).emitted,
            1 ≤ x.1.length ∧ x.1.length ≤ 2)
        ∧ (∀ v ∈ (walkGo ((1 : Nat) : Int) (some ((2 : Nat) : Int))
            (fun _ _ => some true) "t" [] cxTreeC5).vis, v.length ≤ 2 + 1)
        ∧ (∀ (comps : List String) (subs : FSList)
            (fils : List (String × Option Stat)),
            (walkGo ((1 : Nat) : Int) (some ((2 : Nat) : Int))
                (fun _ _ => some true) "t" comps (.mk subs fils)).crashed = false →
            (1 : Nat) ≠ 0 → comps.length < 1 →
            ∀ n ∈ subs.namesOf,
              comps ++ [n] ∈
                (walkGo ((1 : Nat) : Int) (some ((2 : Nat) : Int))
                  (fun _ _ => some true) "t" comps (.mk subs fils)).vis)
        ∧ (∀ (comps : List String) (d : FSDir), (1 : Nat) ≤ comps.length →
            comps.length > 2 →
            walkGo ((1 : Nat) : Int) (some ((2 : Nat) : Int))
              (fun _ _ => some true) "t" comps d = ⟨[comps], [], false⟩)) :=
  ⟨by decide,
    C5_depth_bounds_amended 1 2 (by decide) (fun _ _ => some true) "t" cxTreeC5⟩

/-- C9 (amended): pyfind's run is a deterministic function of the tree
state, the argument list and the current wall-clock time; in particular,
whenever the argument list contains no age test (`-mtime`, `-atime`,
`-ctime`), two runs against an unchanged tree produce identical results
at any two times. -/
theorem C9_no_age_time_invariant (pdb gdb : String → Option Nat)
    (tops : List (String × FSDir)) (args : List String) (now1 now2 : Int)
    (h1 : "-mtime" ∉ args) (h2 : "-atime" ∉ args) (h3 : "-ctime" ∉ args) :
    pyfind_run now1 pdb gdb tops args = pyfind_run now2 pdb gdb tops args := by
  rw [pyfind_run, pyfind_run]
  cases hp : parse_expr pdb gdb args with
  | error ex => rfl
  | ok pr =>
      obtain ⟨e, k⟩ := pr
      have hna : noAgeB e = true :=
        parse_go_noAge pdb gdb (args.length + 1) args 0 .true_ e k h1 h2 h3 rfl hp
      have hev : (fun path st => evalExpr now1 path st e)
          = (fun path st => evalExpr now2 path st e) := by
        funext path st
        exact evalExpr_time_indep now1 now2 path st e hna
      simp only []
      rw [hev]


/-- A one-file tree (mtime 0) for the C9 counterexample and witness. -/
def cxTreeC9 : FSDir := .mk .nil [("f", some stReg)]


/-- C9 counterexample: with the age test `-mtime 0` and action `-print`,
two runs against the same unchanged tree — one at time 0, one two days
later — produce different output, because the age predicates read the
wall clock, not the tree state. -/
theorem C9_counterexample :
    pyfind_run 0 emptyDb emptyDb [("t", cxTreeC9)] ["-mtime", "0", "-print"]
      ≠ pyfind_run 172800 emptyDb emptyDb [("t", cxTreeC9)] ["-mtime", "0", "-print"] := by
  decide


/-- Witness for C9 on an age-free argument list at two distinct times. -/
theorem C9_witness :
    ("-mtime" ∉ ["-name", "f", "-print"] ∧ "-atime" ∉ ["-name", "f", "-print"]
        ∧ "-ctime" ∉ ["-name", "f", "-print"])
      ∧ pyfind_run 0 emptyDb emptyDb [("t", cxTreeC9)] ["-name", "f", "-print"]
          = pyfind_run 172800 emptyDb emptyDb [("t", cxTreeC9)] ["-name", "f", "-print"] :=
  ⟨⟨by decide, by decide, by decide⟩,
    C9_no_age_time_invariant emptyDb emptyDb [("t", cxTreeC9)]
      ["-name", "f", "-print"] 0 172800 (by decide) (by decide) (by decide)⟩

/-- C10 (amended: restricted to runs whose size argument cannot raise —
absent, falsy, or accepted by the size regex — or whose type filter is
`d`, so that traversal completes): when the type filter is absent or
`d`, the traversal raises nothing and every directory of the tree whose
base name matches the name pattern is yielded, regardless of the size
argument — the size filter is never applied to directories. -/
theorem C10_dirs_unfiltered_amended (name type_ size : Option String)
    (root : String) (t : PDir) (htd : typeDirs type_ = true)
    (hok : type_ = some "d" ∨ sizeValid size = true) :
    (traverse root name type_ size t).2 = none
      ∧ ∀ p ∈ allDirsD t, matchName name p.2 = true →
          Pyfind.joinPath root (p.1 ++ [p.2]) ∈ (traverse root name type_ size t).1 :=
  ⟨travGo_noerr name type_ size hok t root,
    fun p hp hm => travGo_dirs name type_ size htd hok t root p hp hm⟩


/-- The tree `root/{a/{b/}, f(1 byte)}` used by the C10 counterexample
and witness. -/
def cxTreeC10 : PDir :=
  .mk (.cons "a" (.mk (.cons "b" (.mk .nil []) .nil) []) .nil) [("f", 1)]


/-- C10 counterexample: with type filter absent and the invalid size
spec `"x"`, the `ValueError` raised while size-checking the file `f`
aborts the traversal before the deeper directory `a/b` is reached, so a
directory whose base name matches the pattern `*` is never yielded — the
claim as stated quantifies over every size spec and fails here. -/
theorem C10_counterexample :
    traverse "root" (some "*") none (some "x") cxTreeC10
        = (["root/a"], some "Invalid size expression: x")
      ∧ (["a"], "b") ∈ allDirsD cxTreeC10
      ∧ matchName (some "*") "b" = true
      ∧ "root/a/b" ∉ (traverse "root" (some "*") none (some "x") cxTreeC10).1 := by
  refine ⟨by decide, by decide, by decide, by decide⟩


/-- Witness for C10 with the valid size spec `+0`. -/
theorem C10_witness :
    (typeDirs none = true ∧ (none = some "d" ∨ sizeValid (some "+0") = true))
      ∧ (traverse "root" (some "*") none (some "+0") cxTreeC10).2 = none
      ∧ Pyfind.joinPath "root" (["a"] ++ ["b"])
          ∈ (traverse "root" (some "*") none (some "+0") cxTreeC10).1 :=
  ⟨⟨by decide, Or.inr (by decide)⟩,
    (C10_dirs_unfiltered_amended (some "*") none (some "+0") "root" cxTreeC10
      (by decide) (Or.inr (by decide))).1,
    (C10_dirs_unfiltered_amended (some "*") none (some "+0") "root" cxTreeC10
      (by decide) (Or.inr (by decide))).2 (["a"], "b") (by decide) (by decide)⟩
